import Mathlib

/-!
Shallow embedding of `powers2.py` (jaspercb/powergen).

The program synthesizes "ability graphs" from a library of typed node
descriptors: a memoized depth-first search over multisets of available value
types finds a topologically sorted sequence of node types, an assembler binds
concrete produced values to required arguments (a random-single-choice mode and
an exhaustive mode), and a canonical hash deduplicates structurally identical
graphs.

Machine integers do not occur; Python integers are `Nat`.  The only source
construct that cannot be transcribed verbatim is the `xxhash.xxh64` digest of a
byte stream, which is replaced by a concrete 64-bit mixing fold (`xxh64`) over
the same byte stream; every property proved here depends only on which byte
streams are fed to the digest, exactly as in the source.
-/

set_option maxRecDepth 100000

/-- The value types flowing between nodes: the namedtuple type tags of the
source, the two `type(...)` classes `Area` and `Bool`, the Python `float` type
(used only as an optional input) and the `InKey` node class itself, which the
`Accumulator` declaration lists as an input type. -/
inductive Ty where
  | PossiblyRepeatedInputKey
  | InputKey
  | Position
  | SimplePath
  | Direction
  | EntityId
  | EnemyEntityId
  | Projectile
  | Damage
  | Condition
  | GameEffect
  | Area
  | Bool
  | Float
  | InKey
  deriving DecidableEq, Repr

/-- A concrete node type: the class produced by `create_node_type`, carrying the
class name and the `INTYPES`, `OUTTYPES` and `FORMATSTRINGS` class attributes. -/
structure NodeType where
  name : String
  INTYPES : List Ty
  OUTTYPES : List Ty
  FORMATSTRINGS : List String
  deriving DecidableEq, Repr

/-- `itertools.combinations(s, r)`: all length-`r` subsequences of `s` in the
order itertools yields them (lexicographic by position, element order kept). -/
def combinations {α : Type} : Nat → List α → List (List α)
  | 0, _ => [[]]
  | _ + 1, [] => []
  | r + 1, x :: xs => (combinations r xs).map (x :: ·) ++ combinations (r + 1) xs

/-- `powerset(iterable)` from the source:
`powerset([1,2,3]) --> () (1,) (2,) (3,) (1,2) (1,3) (2,3) (1,2,3)`. -/
def powerset {α : Type} (s : List α) : List (List α) :=
  (List.range (s.length + 1)).flatMap (fun r => combinations r s)

/-- `create_node_type`: one concrete descriptor per subset of the optional
input list; the class name gets the subset index appended when there are
optional inputs, and the input list is the declared inputs followed by the
chosen optional subset. -/
def create_node_type (nodename : String) (intypes : List Ty) (outtypes : List Ty)
    (formatstrings : List String) (optionalintypes : List Ty) : List NodeType :=
  (powerset optionalintypes).enum.map fun p =>
    { name := nodename ++ (if optionalintypes.isEmpty then "" else toString p.1)
      INTYPES := intypes ++ p.2
      OUTTYPES := outtypes
      FORMATSTRINGS := formatstrings }

/-- The `InKey` node type, created separately from `ALL_NODETYPES` in the
source and prepended to every searched sequence by `generate_unique`. -/
def InKey : NodeType :=
  { name := "InKey"
    INTYPES := []
    OUTTYPES := [Ty.PossiblyRepeatedInputKey]
    FORMATSTRINGS := [""] }

theorem create_node_type_InKey :
    create_node_type "InKey" [] [Ty.PossiblyRepeatedInputKey] [""] [] = [InKey] := by
  decide

/-- The node type registry, in source order.  `OwningEntity` is absent: the
source puts it in the never-consumed `UNIVERSALS` generator, not in
`ALL_NODETYPES`, and `HomingProjectileEntity` is commented out. -/
def ALL_NODETYPES : List NodeType :=
  create_node_type "RepeatInputKey" [Ty.PossiblyRepeatedInputKey] [Ty.InputKey, Ty.InputKey] [""] [] ++
  create_node_type "SingleInputKey" [Ty.PossiblyRepeatedInputKey] [Ty.InputKey] [""] [] ++
  create_node_type "InputClickPosition" [Ty.InputKey] [Ty.Position] [""] [] ++
  create_node_type "InputClickDirection" [Ty.InputKey] [Ty.Direction]
    ["the direction of the user's click"] [] ++
  create_node_type "InputPerpendicularLine" [Ty.InputKey] [Ty.SimplePath]
    ["a line perpendicular to the player"] [] ++
  create_node_type "InputClickDragReleaseDirection" [Ty.InputKey] [Ty.Position, Ty.Direction]
    ["where the user clicked", "where the mouse moved before releasing"] [] ++
  create_node_type "InputUnitTargetEnemy" [Ty.InputKey] [Ty.EnemyEntityId]
    ["the clicked enemy"] [] ++
  create_node_type "InputToggle" [Ty.PossiblyRepeatedInputKey] [Ty.Bool]
    ["a toggle is held"] [] ++
  create_node_type "DumbProjectile" [Ty.SimplePath] [Ty.Projectile]
    ["a projectile that travels along {0}"] [] ++
  create_node_type "ProjectilePassthrough" [Ty.Projectile] [Ty.EnemyEntityId]
    ["all enemies hit by {0}"] [] ++
  create_node_type "ProjectileCollideFirst" [Ty.Projectile] [Ty.EnemyEntityId]
    ["the first enemy hit by {0}"] [] ++
  create_node_type "ProjectileCollideFirstTwo" [Ty.Projectile] [Ty.EnemyEntityId]
    ["the first two enemies hit by {0}"] [] ++
  create_node_type "CircleAroundPoint" [Ty.Position] [Ty.Area]
    ["a circle centered on {0} with radius {1}"] [Ty.Float] ++
  create_node_type "EmitRandomDirections" [Ty.Bool] [Ty.Direction]
    ["random directions when {0}"] [] ++
  create_node_type "PositionFromEntity" [Ty.EntityId] [Ty.Position]
    ["the position of {0}"] [] ++
  create_node_type "EntitiesInArea" [Ty.Area] [Ty.EnemyEntityId]
    ["enemy entities in {0}"] [] ++
  create_node_type "DirectionToSimplePath" [Ty.Position, Ty.Direction] [Ty.SimplePath]
    ["towards {0}"] [] ++
  create_node_type "PathToProjectile" [Ty.SimplePath] [Ty.EnemyEntityId]
    ["enemies hit by projectiles emitted {0}"] [] ++
  create_node_type "CloudFollowingPath" [Ty.SimplePath] [Ty.Area]
    ["a cloud that moves along {0}"] [] ++
  create_node_type "PulseAlongPath" [Ty.SimplePath] [Ty.Position]
    ["points along {0}"] [] ++
  create_node_type "PathToArea" [Ty.SimplePath] [Ty.Area]
    ["a static cloud covering {0}"] [] ++
  create_node_type "Accumulator" [Ty.Position, Ty.InKey] [Ty.Position]
    ["Stores a sequence of positions for simultaneous firing {0}"] [] ++
  create_node_type "AddDamageOnEntity" [Ty.EnemyEntityId] [Ty.Damage]
    ["Deal damage scaling with {1} to {0}"] [Ty.Float] ++
  create_node_type "ConditionOnEntity" [Ty.EnemyEntityId] [Ty.Condition]
    ["Inflict a condition on {0} with intensity {1}"] [Ty.Float] ++
  create_node_type "TeleportPlayer" [Ty.EntityId, Ty.Position] [Ty.GameEffect]
    ["Teleports {0} to {1}"] [] ++
  create_node_type "Wall" [Ty.SimplePath] [Ty.GameEffect]
    ["A wall following {0}"] [] ++
  create_node_type "TerminateDamage" [Ty.Damage] [Ty.GameEffect] ["{0}"] [] ++
  create_node_type "TerminateCondition" [Ty.Condition] [Ty.GameEffect] ["{0}"] []

def MAX_GAME_EFFECTS_PER_POWER : Nat := 3

def MAX_INTERMEDIATE_UNBOUND_VARS : Nat := 4

/-- `goalstates` built in `generate_valid_topsorted_node_dag`:
`for n in range(MAX_GAME_EFFECTS_PER_POWER): goalstates.add(FrozenMultiset([end_type] * n))`
with the default `end_type = GameEffect`. -/
def goalstates : List (Multiset Ty) :=
  (List.range MAX_GAME_EFFECTS_PER_POWER).map
    (fun n => Multiset.replicate n Ty.GameEffect)

/-- The default budget predicate:
`lambda types: len(types) <= MAX_INTERMEDIATE_UNBOUND_VARS`. -/
def budget_predicate (types : Multiset Ty) : Prop :=
  Multiset.card types ≤ MAX_INTERMEDIATE_UNBOUND_VARS

instance : DecidablePred budget_predicate := fun _ => by
  unfold budget_predicate; infer_instance

/-- `FrozenMultiset(nodetype.INTYPES)`. -/
def required_types (nt : NodeType) : Multiset Ty := (nt.INTYPES : Multiset Ty)

/-- `FrozenMultiset(nodetype.OUTTYPES)`. -/
def output_types (nt : NodeType) : Multiset Ty := (nt.OUTTYPES : Multiset Ty)

/-- `can_add_nodetype` inside `dfs`: the required multiset is a subset of the
available multiset (`issubset` on `FrozenMultiset` is multiset `≤`). -/
def can_add_nodetype (available : Multiset Ty) (nt : NodeType) : Prop :=
  required_types nt ≤ available

instance (available : Multiset Ty) : DecidablePred (can_add_nodetype available) :=
  fun _ => by unfold can_add_nodetype; infer_instance

/-- `possible_nodetypes = filter(can_add_nodetype, ALL_NODETYPES)` (before the
`random.shuffle`, which permutes but does not change membership). -/
def possible_nodetypes (available : Multiset Ty) : List NodeType :=
  ALL_NODETYPES.filter (fun nt => decide (can_add_nodetype available nt))

/-- The state transition inside `dfs`:
`(available_types - FrozenMultiset(INTYPES)) + FrozenMultiset(OUTTYPES)`;
`-` is multiset subtraction and `+` is the additive multiset sum of the
`multiset` package. -/
def apply_nodetype (available : Multiset Ty) (nt : NodeType) : Multiset Ty :=
  available - required_types nt + output_types nt

/-- Returns from the memoized `dfs` in `generate_valid_topsorted_node_dag`.
`random.shuffle` makes the trial order arbitrary, so the relation collects
every outcome any shuffle (and any memo fill order) can produce: `some [nt]`
when an addable nodetype steps straight into a goal state, `some (nt :: sfx)`
when the successor state passes the budget predicate and recursively returns
`sfx`, and `none` when every addable nodetype fails both ways.  `dfs` never
returns the empty list, so `if suffix:` distinguishes exactly `None`. -/
inductive DfsOut : Multiset Ty → Option (List NodeType) → Prop
  | goal {st : Multiset Ty} {nt : NodeType} (hmem : nt ∈ ALL_NODETYPES)
      (hadd : can_add_nodetype st nt) (hgoal : apply_nodetype st nt ∈ goalstates) :
      DfsOut st (some [nt])
  | cons {st : Multiset Ty} {nt : NodeType} {sfx : List NodeType}
      (hmem : nt ∈ ALL_NODETYPES) (hadd : can_add_nodetype st nt)
      (hngoal : apply_nodetype st nt ∉ goalstates)
      (hbudget : budget_predicate (apply_nodetype st nt))
      (hrec : DfsOut (apply_nodetype st nt) (some sfx)) :
      DfsOut st (some (nt :: sfx))
  | fail {st : Multiset Ty}
      (hng : ∀ nt ∈ ALL_NODETYPES, can_add_nodetype st nt →
        apply_nodetype st nt ∉ goalstates)
      (hrec : ∀ nt ∈ ALL_NODETYPES, can_add_nodetype st nt →
        budget_predicate (apply_nodetype st nt) →
          DfsOut (apply_nodetype st nt) none) :
      DfsOut st none

/-- A state reaches a goal state through the search's own transition system:
either one addable nodetype steps into a goal state, or some addable nodetype
steps into a budget-respecting state that reaches a goal. -/
inductive ReachesGoal : Multiset Ty → Prop
  | direct {st : Multiset Ty} {nt : NodeType} (hmem : nt ∈ ALL_NODETYPES)
      (hadd : can_add_nodetype st nt) (hgoal : apply_nodetype st nt ∈ goalstates) :
      ReachesGoal st
  | step {st : Multiset Ty} {nt : NodeType} (hmem : nt ∈ ALL_NODETYPES)
      (hadd : can_add_nodetype st nt) (hbudget : budget_predicate (apply_nodetype st nt))
      (hrec : ReachesGoal (apply_nodetype st nt)) :
      ReachesGoal st

/-- A nodetype sequence is stepwise addable from a state: at every step the
required-input multiset of the head is a sub-multiset of the available state. -/
inductive ValidFrom : Multiset Ty → List NodeType → Prop
  | nil {st : Multiset Ty} : ValidFrom st []
  | cons {st : Multiset Ty} {nt : NodeType} {rest : List NodeType}
      (hadd : can_add_nodetype st nt) (hrest : ValidFrom (apply_nodetype st nt) rest) :
      ValidFrom st (nt :: rest)

/-- A runtime `TypedValue`: its type, its description string (the `Node`
constructor sets `"uninitialized"`), and the identity of the producing node:
`source` is the index of the producing instance in creation order and `outIdx`
its position in that instance's `out` tuple (`var.source.out.index(var)`). -/
structure TypedValue where
  type : Ty
  description : String
  source : Nat
  outIdx : Nat
  deriving DecidableEq, Repr

/-- A concrete `Node` instance: its class name, the bound `args` tuple and the
freshly allocated `out` tuple. -/
structure Inst where
  name : String
  args : List TypedValue
  out : List TypedValue
  deriving DecidableEq, Repr

/-- The `out` tuple built in the `Node` constructor:
`tuple(TypedValue(t, "uninitialized") for t in self.OUTTYPES)`, with `source`
set to the new node, which will be the `k`-th created instance. -/
def mkOuts (k : Nat) (outtypes : List Ty) : List TypedValue :=
  outtypes.enum.map fun p => ⟨p.2, "uninitialized", k, p.1⟩

/-- `select_one_arg`: for each unused value of the required type (in pool
order), yield the argument tuple extended with it and the pool without it. -/
def select_one_arg (intype : Ty) (used : List TypedValue) :
    List TypedValue → List (List TypedValue × List TypedValue)
  | [] => []
  | v :: pool =>
    (if v.type = intype then [(used ++ [v], pool)] else []) ++
      (select_one_arg intype used pool).map (fun c => (c.1, v :: c.2))

/-- The `consumed_argsets` loop: starting from `[((), unused_vars)]`, flatmap
`select_one_arg` over the argument states once per entry of `INTYPES`, in
declared order.  (`flatMap` after `flatMap` associates, so the level-by-level
fold of the source produces this list exactly.) -/
def bind_args : List Ty → List TypedValue → List TypedValue →
    List (List TypedValue × List TypedValue)
  | [], used, pool => [(used, pool)]
  | t :: ts, used, pool =>
    (select_one_arg t used pool).flatMap fun c => bind_args ts c.1 c.2

/-- `add_nodetype` of the exhaustive mode: one successor state per complete
argument selection; the new node is appended and its outputs join the pool. -/
def add_nodetype (nt : NodeType) (s : List Inst × List TypedValue) :
    List (List Inst × List TypedValue) :=
  (bind_args nt.INTYPES [] s.2).map fun c =>
    (s.1 ++ [⟨nt.name, c.1, mkOuts s.1.length nt.OUTTYPES⟩],
      c.2 ++ mkOuts s.1.length nt.OUTTYPES)

/-- The state loop of `all_from_list_of_node_types`:
`state = flatmap(add_nodetype, state)` once per nodetype. -/
def all_states : List NodeType → (List Inst × List TypedValue) →
    List (List Inst × List TypedValue)
  | [], s => [s]
  | nt :: nts, s => (add_nodetype nt s).flatMap (all_states nts)

/-- `PowerGraph.all_from_list_of_node_types`: every graph obtainable from the
nodetype sequence, one per combination of argument selections. -/
def all_from_list_of_node_types (nodetypes : List NodeType) : List (List Inst) :=
  (all_states nodetypes ([], [])).map (·.1)

/-- `random.choice` of the sampling mode's `flatmap`: raises (returns `none`)
on an empty candidate list, otherwise picks the element the random oracle
selects and advances the oracle counter. -/
def sample_choice {α : Type} (oracle : Nat → Nat) (ctr : Nat) :
    List α → Option (α × Nat)
  | [] => none
  | x :: xs =>
    some ((x :: xs).get ⟨oracle ctr % (x :: xs).length, Nat.mod_lt _ (Nat.succ_pos _)⟩,
      ctr + 1)

/-- The `consumed_argsets` loop of the sampling mode: the argument-state list
is collapsed to a single random choice after each `INTYPES` entry. -/
def sample_bind_args (oracle : Nat → Nat) :
    List Ty → (List TypedValue × List TypedValue) → Nat →
    Option ((List TypedValue × List TypedValue) × Nat)
  | [], c, ctr => some (c, ctr)
  | t :: ts, c, ctr =>
    match sample_choice oracle ctr (select_one_arg t c.1 c.2) with
    | none => none
    | some (c2, ctr2) => sample_bind_args oracle ts c2 ctr2

/-- The state loop of `from_list_of_node_types`: one node per step; the outer
`random.choice` acts on the one-element successor list and consumes an oracle
step. -/
def sample_states (oracle : Nat → Nat) :
    List NodeType → (List Inst × List TypedValue) → Nat →
    Option ((List Inst × List TypedValue) × Nat)
  | [], s, ctr => some (s, ctr)
  | nt :: nts, s, ctr =>
    match sample_bind_args oracle nt.INTYPES ([], s.2) ctr with
    | none => none
    | some (c, ctr2) =>
      sample_states oracle nts
        (s.1 ++ [⟨nt.name, c.1, mkOuts s.1.length nt.OUTTYPES⟩],
          c.2 ++ mkOuts s.1.length nt.OUTTYPES) (ctr2 + 1)

/-- `PowerGraph.from_list_of_node_types`: the sampling mode, producing one
graph (or failing, when `random.choice` hits an empty candidate list). -/
def from_list_of_node_types (oracle : Nat → Nat) (nodetypes : List NodeType) :
    Option (List Inst) :=
  (sample_states oracle nodetypes ([], []) 0).map (·.1.1)

/-- Concrete 64-bit mixing fold standing in for the `xxhash.xxh64` digest of a
byte stream (an FNV-style fold; the source library's internals are outside the
repository).  What matters for every statement below is which byte stream is
digested, which is taken from the source verbatim. -/
def xxh64 (stream : List Nat) : Nat :=
  stream.foldl (fun h b => (h * 1099511628211 + b + 1) % 2 ^ 64) 14695981039346656037

/-- The bytes of a Python string (the node class names fed to the digest). -/
def strBytes (s : String) : List Nat := s.data.map Char.toNat

/-- The bytes of `str(n)` for a Python integer `n` (the digest values are
re-serialized as decimal strings before being fed to the next digest). -/
def natStr (n : Nat) : List Nat := (Nat.toDigits 10 n).map Char.toNat

/-- `hash_node` of `PowerGraph.__hash__`: digest of the class name followed by
`str(hash_arg(arg))` for each bound argument, where
`hash_arg(var) = xxh64(str(var.source.out.index(var)) + str(hash_node(var.source)))`.
The recursion follows `source` back-references; `fuel` bounds the chain (any
fuel larger than the longest chain computes the memoized fixpoint of the
source, whose recursion is finite because arguments point to earlier nodes). -/
def hash_node (arena : List Inst) : Nat → Nat → Nat
  | 0, _ => 0
  | fuel + 1, i =>
    match arena[i]? with
    | none => 0
    | some inst =>
      xxh64 (strBytes inst.name ++
        inst.args.flatMap (fun v =>
          natStr (xxh64 (natStr v.outIdx ++ natStr (hash_node arena fuel v.source)))))

/-- The class name of the `i`-th created instance. -/
def nameAt (arena : List Inst) (i : Nat) : String :=
  match arena[i]? with
  | some inst => inst.name
  | none => ""

/-- Stable insertion of `x` into a sorted list: `x` goes in front of the first
element it compares `le` to, so earlier elements stay in front of equal later
ones. -/
def insertByLe {α : Type} (le : α → α → Bool) (x : α) : List α → List α
  | [] => [x]
  | y :: ys => if le x y then x :: y :: ys else y :: insertByLe le x ys

/-- Stable insertion sort.  A stable sort by a total preorder has a unique
result, so this computes exactly Python's stable `sorted`. -/
def sortByLe {α : Type} (le : α → α → Bool) : List α → List α
  | [] => []
  | x :: xs => insertByLe le x (sortByLe le xs)

/-- Lexicographic code-point order on character lists. -/
def lexLe : List Char → List Char → Bool
  | [], _ => true
  | _ :: _, [] => false
  | c :: cs, d :: ds =>
    if c.toNat < d.toNat then true
    else if d.toNat < c.toNat then false
    else lexLe cs ds

/-- Python's `str` comparison: lexicographic by code point. -/
def strLe (a b : String) : Bool := lexLe a.data b.data

/-- `canonical_node_order`: `sorted(nodelist, key=lambda node: node.__class__.__name__)`.
Python's `sorted` is stable: ties between equal class names keep the
presentation order of the node collection. -/
def canonical_node_order (arena : List Inst) (nodes : List Nat) : List Nat :=
  sortByLe (fun i j => strLe (nameAt arena i) (nameAt arena j)) nodes

/-- `PowerGraph.__hash__`: digest of `str(hash_node(node))` for the nodes in
canonical order.  `arena` holds the instances in creation order (the object
graph); `nodes` is the order in which the node collection is presented (the
iteration order of the `self.nodes` frozenset). -/
def powergraph_hash (arena : List Inst) (nodes : List Nat) : Nat :=
  xxh64 ((canonical_node_order arena nodes).flatMap
    (fun i => natStr (hash_node arena arena.length i)))

/-- The hash of an assembled graph: its instances in creation order, presented
in creation order. -/
def pgHash (g : List Inst) : Nat := powergraph_hash g (List.range g.length)

/-- The loop of `generate_unique`.  Each iteration draws the next candidate
graph (`cand` abstracts the randomized search-plus-assembly pipeline;
the default `predicate` accepts every graph), skips it when its hash was seen,
and emits it otherwise, until `n_unique` graphs have been emitted.  The source
loop has no other exit and raises nothing; `fuel` counts loop iterations so
that runs of every finite length are observable, and the flag records whether
the loop has terminated within `fuel` iterations. -/
def gu_loop (cand : Nat → List Inst) (n_unique : Nat) :
    Nat → List (List Inst) → List Nat → Nat → List (List Inst) × Bool
  | 0, emitted, _, _ => (emitted, decide (n_unique ≤ emitted.length))
  | fuel + 1, emitted, seen, i =>
    if n_unique ≤ emitted.length then (emitted, true)
    else
      if pgHash (cand i) ∈ seen then gu_loop cand n_unique fuel emitted seen (i + 1)
      else gu_loop cand n_unique fuel (emitted ++ [cand i]) (pgHash (cand i) :: seen) (i + 1)

/-- `PowerGraphGenerator.generate_unique` with the default predicate, observed
for `fuel` loop iterations: the graphs yielded so far and whether the loop has
finished. -/
def generate_unique (cand : Nat → List Inst) (n_unique : Nat) (fuel : Nat) :
    List (List Inst) × Bool :=
  gu_loop cand n_unique fuel [] [] 0

theorem mem_combinations_iff {α : Type} (l : List α) :
    ∀ (r : Nat) (s : List α), s ∈ combinations r l ↔ s.Sublist l ∧ s.length = r := by
  induction l with
  | nil =>
    intro r s
    cases r with
    | zero =>
      simp only [combinations, List.mem_singleton]
      constructor
      · rintro rfl; exact ⟨List.Sublist.refl _, rfl⟩
      · rintro ⟨hs, _⟩; exact List.sublist_nil.mp hs
    | succ r =>
      simp only [combinations, List.not_mem_nil, false_iff, not_and]
      intro hs
      rw [List.sublist_nil.mp hs]
      simp
  | cons x xs ih =>
    intro r s
    cases r with
    | zero =>
      simp only [combinations, List.mem_singleton]
      constructor
      · rintro rfl; exact ⟨List.nil_sublist _, rfl⟩
      · rintro ⟨_, hlen⟩; exact (List.length_eq_zero.mp hlen).symm ▸ rfl
    | succ r =>
      simp only [combinations, List.mem_append, List.mem_map]
      constructor
      · rintro (⟨t, ht, rfl⟩ | h)
        · have h2 := (ih r t).mp ht
          exact ⟨List.Sublist.cons₂ x h2.1, by simp [h2.2]⟩
        · have h2 := (ih (r + 1) s).mp h
          exact ⟨List.Sublist.cons x h2.1, h2.2⟩
      · rintro ⟨hs, hlen⟩
        rcases List.sublist_cons_iff.mp hs with h | ⟨t, rfl, ht⟩
        · exact Or.inr ((ih (r + 1) s).mpr ⟨h, hlen⟩)
        · refine Or.inl ⟨t, (ih r t).mpr ⟨ht, ?_⟩, rfl⟩
          simpa using hlen

theorem combinations_nodup {α : Type} (l : List α) (hl : l.Nodup) :
    ∀ r, (combinations r l).Nodup := by
  induction l with
  | nil =>
    intro r
    cases r with
    | zero => simp [combinations]
    | succ r => simp [combinations]
  | cons x xs ih =>
    rw [List.nodup_cons] at hl
    intro r
    cases r with
    | zero => simp [combinations]
    | succ r =>
      refine List.Nodup.append ?_ (ih hl.2 (r + 1)) ?_
      · exact (ih hl.2 r).map (fun a b h => by injection h)
      · intro s hs1 hs2
        simp only [List.mem_map] at hs1
        obtain ⟨t, _, rfl⟩ := hs1
        have h2 := (mem_combinations_iff xs (r + 1) (x :: t)).mp hs2
        exact hl.1 (h2.1.subset (List.mem_cons_self x t))

theorem powerset_nodup {α : Type} (l : List α) (hl : l.Nodup) : (powerset l).Nodup := by
  unfold powerset
  rw [List.nodup_flatMap]
  refine ⟨fun r _ => combinations_nodup l hl r, ?_⟩
  refine (List.pairwise_lt_range _).imp ?_
  intro r r2 hlt s hs1 hs2
  have h1 := (mem_combinations_iff l r s).mp hs1
  have h2 := (mem_combinations_iff l r2 s).mp hs2
  omega

theorem mem_powerset_iff {α : Type} (l s : List α) : s ∈ powerset l ↔ s.Sublist l := by
  unfold powerset
  rw [List.mem_flatMap]
  constructor
  · rintro ⟨r, _, hs⟩
    exact ((mem_combinations_iff l r s).mp hs).1
  · intro hs
    refine ⟨s.length, ?_, (mem_combinations_iff l s.length s).mpr ⟨hs, rfl⟩⟩
    rw [List.mem_range]
    exact Nat.lt_succ_of_le hs.length_le

/-- C6: optional-input expansion enumerates every subset of the optional-input
list exactly once, the expanded required-input list is the base list followed
by the subset in declaration order, and a declaration with two optional inputs
expands into exactly four concrete descriptors with distinct names and
required-input lengths base+0, base+1, base+1, base+2 respectively. -/
theorem optional_input_expansion (nodename : String) (intypes outtypes : List Ty)
    (formatstrings : List String) (opts : List Ty) (hopts : opts.Nodup) :
    ((create_node_type nodename intypes outtypes formatstrings opts).map NodeType.INTYPES
        = (powerset opts).map (fun sub => intypes ++ sub)) ∧
    (powerset opts).Nodup ∧
    (∀ sub, sub ∈ powerset opts ↔ sub.Sublist opts) ∧
    ((create_node_type "X" [Ty.EnemyEntityId] [Ty.Damage] ["d"] [Ty.Float, Ty.Position]).map
        (fun nt => (nt.name, nt.INTYPES.length))
      = [("X0", 1), ("X1", 2), ("X2", 2), ("X3", 3)]) := by
  refine ⟨?_, powerset_nodup _ hopts, fun sub => mem_powerset_iff _ _, by decide⟩
  unfold create_node_type
  rw [List.map_map]
  have h1 : (NodeType.INTYPES ∘ fun p : Nat × List Ty =>
      ({ name := nodename ++ (if opts.isEmpty then "" else toString p.1)
         INTYPES := intypes ++ p.2
         OUTTYPES := outtypes
         FORMATSTRINGS := formatstrings } : NodeType)) =
      (fun sub => intypes ++ sub) ∘ Prod.snd := rfl
  rw [h1, ← List.map_map, List.enum_map_snd]

/-- C6 witness: the hypotheses hold at the concrete two-optional-input
declaration. -/
theorem optional_input_expansion_witness :
    ([Ty.Float, Ty.Position] : List Ty).Nodup ∧ (powerset [Ty.Float, Ty.Position]).Nodup :=
  ⟨by decide, (optional_input_expansion "X" [Ty.EnemyEntityId] [Ty.Damage] ["d"]
    [Ty.Float, Ty.Position] (by decide)).2.1⟩

/-- C10: the goal-state set of the default search is exactly the multisets of
`k` copies of `GameEffect` for `k ∈ {0, 1, 2}`: the empty multiset is a goal,
and three copies is not, even though `MAX_GAME_EFFECTS_PER_POWER = 3`. -/
theorem goalstates_spec :
    (∀ s : Multiset Ty, s ∈ goalstates ↔
      ∃ k, k ≤ 2 ∧ s = Multiset.replicate k Ty.GameEffect) ∧
    (0 : Multiset Ty) ∈ goalstates ∧
    Multiset.replicate 3 Ty.GameEffect ∉ goalstates ∧
    MAX_GAME_EFFECTS_PER_POWER = 3 := by
  have hg : goalstates =
      [0, Multiset.replicate 1 Ty.GameEffect, Multiset.replicate 2 Ty.GameEffect] := by
    decide
  refine ⟨?_, by decide, by decide, rfl⟩
  intro s
  rw [hg]
  simp only [List.mem_cons, List.not_mem_nil, or_false]
  constructor
  · rintro (rfl | rfl | rfl)
    · exact ⟨0, by omega, by simp⟩
    · exact ⟨1, by omega, rfl⟩
    · exact ⟨2, by omega, rfl⟩
  · rintro ⟨k, hk, rfl⟩
    interval_cases k
    · left; simp
    · right; left; rfl
    · right; right; rfl

/-- `CircleAroundPoint0`: the optional-subset-∅ expansion of
`CircleAroundPoint`, as it sits in `ALL_NODETYPES`. -/
def CircleAroundPoint0 : NodeType :=
  { name := "CircleAroundPoint0"
    INTYPES := [Ty.Position]
    OUTTYPES := [Ty.Area]
    FORMATSTRINGS := ["a circle centered on {0} with radius {1}"] }

/-- C3 counterexample: from the state `{Position, Area}` the addable descriptor
`CircleAroundPoint0` transitions to `{Area, Area}`, which is not
`(available − required) ∪ outputs` for the multiset (max) union: the code adds
the outputs with the additive multiset sum, so multiplicities accumulate. -/
theorem apply_nodetype_ne_max_union :
    CircleAroundPoint0 ∈ ALL_NODETYPES ∧
    can_add_nodetype {Ty.Position, Ty.Area} CircleAroundPoint0 ∧
    apply_nodetype {Ty.Position, Ty.Area} CircleAroundPoint0 =
      (Ty.Area ::ₘ {Ty.Area}) ∧
    apply_nodetype {Ty.Position, Ty.Area} CircleAroundPoint0 ≠
      (({Ty.Position, Ty.Area} : Multiset Ty) - required_types CircleAroundPoint0) ∪
        output_types CircleAroundPoint0 := by
  decide

/-- C3 amended: a descriptor is addable from a state exactly when its
required-input multiset is a sub-multiset of the available multiset, and
applying it transitions the state to `(available − required) + outputs`, with
`+` the additive multiset union (sum), not the max union. -/
theorem addable_iff_and_transition (st : Multiset Ty) (nt : NodeType) :
    (nt ∈ possible_nodetypes st ↔ nt ∈ ALL_NODETYPES ∧ required_types nt ≤ st) ∧
    (can_add_nodetype st nt ↔ required_types nt ≤ st) ∧
    apply_nodetype st nt = (st - required_types nt) + output_types nt := by
  refine ⟨?_, Iff.rfl, rfl⟩
  simp [possible_nodetypes, List.mem_filter, can_add_nodetype]

/-- A per-type weight under which every registered descriptor is strictly
decreasing: for each member of `ALL_NODETYPES` the weighted outputs are
lighter than the weighted inputs (no descriptor chain can loop, which is what
makes the recursion of `dfs` finite). -/
def tyWeight : Ty → Nat
  | .PossiblyRepeatedInputKey => 100
  | .InputKey => 40
  | .Position => 10
  | .SimplePath => 25
  | .Direction => 20
  | .EntityId => 50
  | .EnemyEntityId => 6
  | .Projectile => 7
  | .Damage => 2
  | .Condition => 2
  | .GameEffect => 1
  | .Area => 8
  | .Bool => 45
  | .Float => 1
  | .InKey => 1

/-- Total weight of an available-types state. -/
def stateWeight (st : Multiset Ty) : Nat := (st.map tyWeight).sum

theorem nodetype_weight_decrease :
    ∀ nt ∈ ALL_NODETYPES,
      ((output_types nt).map tyWeight).sum < ((required_types nt).map tyWeight).sum := by
  decide

theorem apply_weight_lt {st : Multiset Ty} {nt : NodeType} (hmem : nt ∈ ALL_NODETYPES)
    (hadd : can_add_nodetype st nt) :
    stateWeight (apply_nodetype st nt) < stateWeight st := by
  obtain ⟨u, hu⟩ := Multiset.le_iff_exists_add.mp hadd
  have hw := nodetype_weight_decrease nt hmem
  subst hu
  unfold apply_nodetype stateWeight
  rw [add_tsub_cancel_left, Multiset.map_add, Multiset.sum_add, Multiset.map_add,
    Multiset.sum_add]
  omega

theorem dfsOut_total_aux : ∀ n, ∀ st : Multiset Ty, stateWeight st < n → ∃ r, DfsOut st r := by
  intro n
  induction n with
  | zero => intro st h; omega
  | succ n ih =>
    intro st hst
    by_cases hg : ∃ nt ∈ ALL_NODETYPES, can_add_nodetype st nt ∧
        apply_nodetype st nt ∈ goalstates
    · obtain ⟨nt, hmem, hadd, hgoal⟩ := hg
      exact ⟨some [nt], DfsOut.goal hmem hadd hgoal⟩
    by_cases hc : ∃ nt ∈ ALL_NODETYPES, ∃ sfx, can_add_nodetype st nt ∧
        apply_nodetype st nt ∉ goalstates ∧ budget_predicate (apply_nodetype st nt) ∧
        DfsOut (apply_nodetype st nt) (some sfx)
    · obtain ⟨nt, hmem, sfx, hadd, hng, hb, hrec⟩ := hc
      exact ⟨some (nt :: sfx), DfsOut.cons hmem hadd hng hb hrec⟩
    push_neg at hg hc
    refine ⟨none, DfsOut.fail (fun nt hmem hadd => hg nt hmem hadd) ?_⟩
    intro nt hmem hadd hb
    have hlt : stateWeight (apply_nodetype st nt) < n :=
      lt_of_lt_of_le (apply_weight_lt hmem hadd) (Nat.lt_succ_iff.mp hst)
    obtain ⟨r, hr⟩ := ih _ hlt
    cases r with
    | none => exact hr
    | some sfx => exact absurd hr (hc nt hmem sfx hadd (hg nt hmem hadd) hb)

theorem dfsOut_some_reaches : ∀ {st : Multiset Ty} {r : Option (List NodeType)},
    DfsOut st r → ∀ seq, r = some seq → ReachesGoal st := by
  intro st r h
  induction h with
  | goal hmem hadd hgoal => exact fun _ _ => ReachesGoal.direct hmem hadd hgoal
  | cons hmem hadd hng hb _ ih => exact fun _ _ => ReachesGoal.step hmem hadd hb (ih _ rfl)
  | fail h1 h2 ih => exact fun seq h => by cases h

theorem dfsOut_some_valid : ∀ {st : Multiset Ty} {r : Option (List NodeType)},
    DfsOut st r → ∀ seq, r = some seq → ValidFrom st seq := by
  intro st r h
  induction h with
  | goal hmem hadd hgoal =>
    intro seq hseq
    cases hseq
    exact ValidFrom.cons hadd ValidFrom.nil
  | cons hmem hadd hng hb _ ih =>
    intro seq hseq
    cases hseq
    exact ValidFrom.cons hadd (ih _ rfl)
  | fail h1 h2 ih => exact fun seq h => by cases h

/-- C7: the reachability search always terminates — every state has a dfs
outcome under the transition rule, by the strictly decreasing state weight —
and it returns `None` whenever no budget-respecting path reaches a goal: any
`some` outcome certifies that the state reaches a goal state. -/
theorem dfs_terminates_and_none_complete (st : Multiset Ty) :
    (∃ r, DfsOut st r) ∧ (∀ seq, DfsOut st (some seq) → ReachesGoal st) :=
  ⟨dfsOut_total_aux (stateWeight st + 1) st (Nat.lt_succ_self _),
   fun seq h => dfsOut_some_reaches h seq rfl⟩

/-- The `SingleInputKey` node type as registered in `ALL_NODETYPES`. -/
def SingleInputKey : NodeType :=
  { name := "SingleInputKey"
    INTYPES := [Ty.PossiblyRepeatedInputKey]
    OUTTYPES := [Ty.InputKey]
    FORMATSTRINGS := [""] }

/-- The `InputPerpendicularLine` node type as registered in `ALL_NODETYPES`. -/
def InputPerpendicularLine : NodeType :=
  { name := "InputPerpendicularLine"
    INTYPES := [Ty.InputKey]
    OUTTYPES := [Ty.SimplePath]
    FORMATSTRINGS := ["a line perpendicular to the player"] }

/-- The `Wall` node type as registered in `ALL_NODETYPES`. -/
def Wall : NodeType :=
  { name := "Wall"
    INTYPES := [Ty.SimplePath]
    OUTTYPES := [Ty.GameEffect]
    FORMATSTRINGS := ["A wall following {0}"] }

/-- A concrete dfs return from the start state `{PossiblyRepeatedInputKey}`:
the sequence `[SingleInputKey, InputPerpendicularLine, Wall]`. -/
theorem dfsOut_example :
    DfsOut ({Ty.PossiblyRepeatedInputKey} : Multiset Ty)
      (some [SingleInputKey, InputPerpendicularLine, Wall]) :=
  DfsOut.cons (by decide) (by decide) (by decide) (by decide)
    (DfsOut.cons (by decide) (by decide) (by decide) (by decide)
      (DfsOut.goal (by decide) (by decide) (by decide)))

/-- C7 witness: at the driver's start state the theorem applies with the
concrete dfs return above, certifying reachability of a goal. -/
theorem dfs_terminates_witness :
    (∃ r, DfsOut ({Ty.PossiblyRepeatedInputKey} : Multiset Ty) r) ∧
      ReachesGoal ({Ty.PossiblyRepeatedInputKey} : Multiset Ty) :=
  ⟨(dfs_terminates_and_none_complete _).1,
   (dfs_terminates_and_none_complete _).2 _ dfsOut_example⟩

/-- The multiset of types of a pool of unused values — the quantity the search
reasons about. -/
def typesOf (pool : List TypedValue) : Multiset Ty :=
  ((pool.map TypedValue.type : List Ty) : Multiset Ty)

theorem typesOf_cons (v : TypedValue) (pool : List TypedValue) :
    typesOf (v :: pool) = v.type ::ₘ typesOf pool := rfl

theorem typesOf_append (p q : List TypedValue) :
    typesOf (p ++ q) = typesOf p + typesOf q := by
  unfold typesOf
  rw [List.map_append, ← Multiset.coe_add]

theorem typesOf_mkOuts (k : Nat) (outtypes : List Ty) :
    typesOf (mkOuts k outtypes) = (outtypes : Multiset Ty) := by
  unfold typesOf mkOuts
  rw [List.map_map]
  have h1 : (TypedValue.type ∘ fun p : Nat × Ty =>
      (⟨p.2, "uninitialized", k, p.1⟩ : TypedValue)) = Prod.snd := rfl
  rw [h1, List.enum_map_snd]

theorem select_one_arg_ne_nil {intype : Ty} {used : List TypedValue} :
    ∀ {pool : List TypedValue}, intype ∈ typesOf pool →
      select_one_arg intype used pool ≠ [] := by
  intro pool
  induction pool with
  | nil => intro h; simp [typesOf] at h
  | cons v pool ih =>
    intro h
    rw [typesOf_cons, Multiset.mem_cons] at h
    rcases h with h | h
    · subst h
      simp [select_one_arg]
    · intro hcontra
      simp only [select_one_arg, List.append_eq_nil, List.map_eq_nil_iff] at hcontra
      exact ih h hcontra.2

theorem select_one_arg_spec {intype : Ty} :
    ∀ {pool used : List TypedValue} {c : List TypedValue × List TypedValue},
      c ∈ select_one_arg intype used pool →
      (∃ v, v.type = intype ∧ c.1 = used ++ [v]) ∧
        typesOf pool = intype ::ₘ typesOf c.2 ∧
        (c.1 ++ c.2).Perm (used ++ pool) := by
  intro pool
  induction pool with
  | nil => intro used c h; simp [select_one_arg] at h
  | cons v pool ih =>
    intro used c h
    simp only [select_one_arg, List.mem_append, List.mem_map] at h
    rcases h with h | ⟨d, hd, rfl⟩
    · by_cases hv : v.type = intype
      · rw [if_pos hv, List.mem_singleton] at h
        subst h
        refine ⟨⟨v, hv, rfl⟩, by rw [typesOf_cons, hv], ?_⟩
        rw [List.append_assoc]
        exact List.Perm.refl _
      · rw [if_neg hv] at h
        simp at h
    · obtain ⟨⟨w, hw, hw2⟩, htypes, hperm⟩ := ih hd
      refine ⟨⟨w, hw, hw2⟩, ?_, ?_⟩
      · rw [typesOf_cons, typesOf_cons, htypes, Multiset.cons_swap]
      · exact List.perm_middle.trans ((hperm.cons v).trans List.perm_middle.symm)

theorem sample_choice_mem {α : Type} (oracle : Nat → Nat) (ctr : Nat)
    (l : List α) (h : l ≠ []) :
    ∃ x ∈ l, sample_choice oracle ctr l = some (x, ctr + 1) := by
  cases l with
  | nil => exact absurd rfl h
  | cons a as => exact ⟨_, List.get_mem _ _ _, rfl⟩

theorem sample_bind_args_spec (oracle : Nat → Nat) :
    ∀ (ts : List Ty) (used pool : List TypedValue) (ctr : Nat),
      (↑ts : Multiset Ty) ≤ typesOf pool →
      ∃ c ctr2, sample_bind_args oracle ts (used, pool) ctr = some (c, ctr2) ∧
        typesOf c.2 = typesOf pool - ↑ts ∧ (c.1 ++ c.2).Perm (used ++ pool) := by
  intro ts
  induction ts with
  | nil =>
    intro used pool ctr _
    exact ⟨(used, pool), ctr, rfl, by simp [typesOf], List.Perm.refl _⟩
  | cons t ts ih =>
    intro used pool ctr h
    rw [← Multiset.cons_coe] at h
    have ht : t ∈ typesOf pool := Multiset.mem_of_le h (Multiset.mem_cons_self t _)
    obtain ⟨c1, hc1mem, hchoice⟩ := sample_choice_mem oracle ctr
      (select_one_arg t used pool) (select_one_arg_ne_nil ht)
    obtain ⟨_, htypes, hperm1⟩ := select_one_arg_spec hc1mem
    have hle : (↑ts : Multiset Ty) ≤ typesOf c1.2 := by
      rw [htypes] at h
      exact (Multiset.cons_le_cons_iff t).mp h
    obtain ⟨c, ctr2, heq, htypes2, hperm2⟩ := ih c1.1 c1.2 (ctr + 1) hle
    refine ⟨c, ctr2, ?_, ?_, hperm2.trans hperm1⟩
    · show (match sample_choice oracle ctr (select_one_arg t used pool) with
        | none => none
        | some (c2, ctr2) => sample_bind_args oracle ts c2 ctr2) = some (c, ctr2)
      rw [hchoice]
      exact heq
    · rw [htypes2, htypes, ← Multiset.cons_coe, Multiset.sub_cons,
        Multiset.erase_cons_head]

theorem sample_states_some (oracle : Nat → Nat) :
    ∀ (seq : List NodeType) (nodes : List Inst) (pool : List TypedValue) (ctr : Nat),
      ValidFrom (typesOf pool) seq →
      ∃ s ctr2, sample_states oracle seq (nodes, pool) ctr = some (s, ctr2) := by
  intro seq
  induction seq with
  | nil => exact fun nodes pool ctr _ => ⟨(nodes, pool), ctr, rfl⟩
  | cons nt seq ih =>
    intro nodes pool ctr hv
    cases hv with
    | cons hadd hrest =>
      obtain ⟨c, ctr2, heq, htypes, _⟩ :=
        sample_bind_args_spec oracle nt.INTYPES [] pool ctr hadd
      have hnew : typesOf (c.2 ++ mkOuts nodes.length nt.OUTTYPES)
          = apply_nodetype (typesOf pool) nt := by
        rw [typesOf_append, typesOf_mkOuts, htypes]
        rfl
      obtain ⟨s, ctr3, heq2⟩ := ih (nodes ++ [⟨nt.name, c.1, mkOuts nodes.length nt.OUTTYPES⟩])
        (c.2 ++ mkOuts nodes.length nt.OUTTYPES) (ctr2 + 1) (hnew ▸ hrest)
      refine ⟨s, ctr3, ?_⟩
      show (match sample_bind_args oracle nt.INTYPES ([], pool) ctr with
        | none => none
        | some (c, ctr2) =>
          sample_states oracle seq
            (nodes ++ [⟨nt.name, c.1, mkOuts nodes.length nt.OUTTYPES⟩],
              c.2 ++ mkOuts nodes.length nt.OUTTYPES) (ctr2 + 1)) = some (s, ctr3)
      rw [heq]
      exact heq2

/-- C2: every node-type sequence returned by the reachability search from the
driver's start state, prefixed with the `InKey` source node as `generate_unique`
does, assembles successfully under every outcome of the random choices: at each
step a value of each required type is available, so `random.choice` never sees
an empty candidate list and no argument-binding error is raised. -/
theorem search_output_assembles (seq : List NodeType)
    (h : DfsOut ({Ty.PossiblyRepeatedInputKey} : Multiset Ty) (some seq))
    (oracle : Nat → Nat) :
    (from_list_of_node_types oracle (InKey :: seq)).isSome = true := by
  have hv : ValidFrom ({Ty.PossiblyRepeatedInputKey} : Multiset Ty) seq :=
    dfsOut_some_valid h seq rfl
  have hv2 : ValidFrom (typesOf ([] ++ mkOuts 0 [Ty.PossiblyRepeatedInputKey])) seq := hv
  obtain ⟨s, ctr2, heq⟩ := sample_states_some oracle seq
    [⟨InKey.name, [], mkOuts 0 [Ty.PossiblyRepeatedInputKey]⟩]
    ([] ++ mkOuts 0 [Ty.PossiblyRepeatedInputKey]) 1 hv2
  unfold from_list_of_node_types
  have h0 : sample_states oracle (InKey :: seq) ([], []) 0 =
      sample_states oracle seq
        ([⟨InKey.name, [], mkOuts 0 [Ty.PossiblyRepeatedInputKey]⟩],
          [] ++ mkOuts 0 [Ty.PossiblyRepeatedInputKey]) 1 := rfl
  rw [h0, heq]
  rfl

/-- C2 witness: the concrete search output
`[SingleInputKey, InputPerpendicularLine, Wall]` assembles with the all-zeros
oracle. -/
theorem search_output_assembles_witness :
    (from_list_of_node_types (fun _ => 0)
      (InKey :: [SingleInputKey, InputPerpendicularLine, Wall])).isSome = true :=
  search_output_assembles [SingleInputKey, InputPerpendicularLine, Wall]
    dfsOut_example (fun _ => 0)

theorem sample_choice_eq_mem {α : Type} {oracle : Nat → Nat} {ctr : Nat}
    {l : List α} {x : α} {n : Nat}
    (h : sample_choice oracle ctr l = some (x, n)) : x ∈ l := by
  cases l with
  | nil => cases h
  | cons a as =>
    simp only [sample_choice, Option.some.injEq, Prod.mk.injEq] at h
    rw [← h.1]
    exact List.get_mem _ _ _

theorem sample_bind_args_mem (oracle : Nat → Nat) :
    ∀ (ts : List Ty) (c : List TypedValue × List TypedValue) (ctr : Nat)
      (c2 : List TypedValue × List TypedValue) (ctr2 : Nat),
      sample_bind_args oracle ts c ctr = some (c2, ctr2) →
      c2 ∈ bind_args ts c.1 c.2 := by
  intro ts
  induction ts with
  | nil =>
    intro c ctr c2 ctr2 h
    simp only [sample_bind_args, Option.some.injEq, Prod.mk.injEq] at h
    rw [← h.1]
    simp [bind_args]
  | cons t ts ih =>
    intro c ctr c2 ctr2 h
    rw [show sample_bind_args oracle (t :: ts) c ctr =
        (match sample_choice oracle ctr (select_one_arg t c.1 c.2) with
          | none => none
          | some (c1, ctr1) => sample_bind_args oracle ts c1 ctr1) from rfl] at h
    cases hch : sample_choice oracle ctr (select_one_arg t c.1 c.2) with
    | none => rw [hch] at h; cases h
    | some p =>
      rw [hch] at h
      have hmem := sample_choice_eq_mem hch
      show c2 ∈ (select_one_arg t c.1 c.2).flatMap fun d => bind_args ts d.1 d.2
      rw [List.mem_flatMap]
      exact ⟨p.1, hmem, ih p.1 p.2 c2 ctr2 h⟩

theorem sample_states_mem (oracle : Nat → Nat) :
    ∀ (seq : List NodeType) (s : List Inst × List TypedValue) (ctr : Nat)
      (s2 : List Inst × List TypedValue) (ctr2 : Nat),
      sample_states oracle seq s ctr = some (s2, ctr2) →
      s2 ∈ all_states seq s := by
  intro seq
  induction seq with
  | nil =>
    intro s ctr s2 ctr2 h
    simp only [sample_states, Option.some.injEq, Prod.mk.injEq] at h
    rw [← h.1]
    simp [all_states]
  | cons nt seq ih =>
    intro s ctr s2 ctr2 h
    rw [show sample_states oracle (nt :: seq) s ctr =
        (match sample_bind_args oracle nt.INTYPES ([], s.2) ctr with
          | none => none
          | some (c, ctr2) =>
            sample_states oracle seq
              (s.1 ++ [⟨nt.name, c.1, mkOuts s.1.length nt.OUTTYPES⟩],
                c.2 ++ mkOuts s.1.length nt.OUTTYPES) (ctr2 + 1)) from rfl] at h
    cases hb : sample_bind_args oracle nt.INTYPES ([], s.2) ctr with
    | none => rw [hb] at h; cases h
    | some p =>
      rw [hb] at h
      have hc := sample_bind_args_mem oracle nt.INTYPES ([], s.2) ctr p.1 p.2 (by
        rw [hb])
      show s2 ∈ (add_nodetype nt s).flatMap (all_states seq)
      rw [List.mem_flatMap]
      refine ⟨(s.1 ++ [⟨nt.name, p.1.1, mkOuts s.1.length nt.OUTTYPES⟩],
        p.1.2 ++ mkOuts s.1.length nt.OUTTYPES), ?_, ih _ _ _ _ h⟩
      unfold add_nodetype
      exact List.mem_map_of_mem _ hc

/-- C9: sample-mode assembly refines exhaustive-mode assembly: for every
node-type sequence and every outcome of the random choices, the single graph
produced by `from_list_of_node_types` occurs among the graphs produced by
`all_from_list_of_node_types` on the same sequence, with the same canonical
fingerprint. -/
theorem sample_refines_exhaustive (nodetypes : List NodeType) (oracle : Nat → Nat)
    (g : List Inst) (h : from_list_of_node_types oracle nodetypes = some g) :
    ∃ g2 ∈ all_from_list_of_node_types nodetypes, pgHash g2 = pgHash g := by
  unfold from_list_of_node_types at h
  cases hs : sample_states oracle nodetypes ([], []) 0 with
  | none => rw [hs] at h; cases h
  | some p =>
    rw [hs] at h
    have h2 : p.1.1 = g := by simpa using h
    refine ⟨g, ?_, rfl⟩
    unfold all_from_list_of_node_types
    rw [← h2]
    exact List.mem_map_of_mem _ (sample_states_mem oracle nodetypes ([], []) 0 p.1 p.2
      (by rw [hs]))

/-- C9 witness: the sample assembly of `[InKey]` with the all-zeros oracle is
among the exhaustive assemblies of `[InKey]`. -/
theorem sample_refines_exhaustive_witness :
    ∃ g2 ∈ all_from_list_of_node_types [InKey],
      pgHash g2 = pgHash [⟨"InKey", [], mkOuts 0 [Ty.PossiblyRepeatedInputKey]⟩] :=
  sample_refines_exhaustive [InKey] (fun _ => 0)
    [⟨"InKey", [], mkOuts 0 [Ty.PossiblyRepeatedInputKey]⟩] rfl

/-- All bound-argument occurrences of a graph, across all its instances. -/
def graphArgs (g : List Inst) : List TypedValue := g.flatMap Inst.args

theorem bind_args_perm : ∀ (ts : List Ty) (used pool : List TypedValue)
    (c : List TypedValue × List TypedValue),
    c ∈ bind_args ts used pool → (c.1 ++ c.2).Perm (used ++ pool) := by
  intro ts
  induction ts with
  | nil =>
    intro used pool c h
    simp only [bind_args, List.mem_singleton] at h
    subst h
    exact List.Perm.refl _
  | cons t ts ih =>
    intro used pool c h
    simp only [bind_args, List.mem_flatMap] at h
    obtain ⟨d, hd, hc⟩ := h
    exact (ih d.1 d.2 c hc).trans (select_one_arg_spec hd).2.2

theorem mkOuts_nodup (k : Nat) (l : List Ty) : (mkOuts k l).Nodup := by
  apply List.Nodup.of_map TypedValue.outIdx
  unfold mkOuts
  rw [List.map_map]
  have h1 : (TypedValue.outIdx ∘ fun p : Nat × Ty =>
      (⟨p.2, "uninitialized", k, p.1⟩ : TypedValue)) = Prod.fst := rfl
  rw [h1, List.enum_map_fst]
  exact List.nodup_range _

theorem mkOuts_source (k : Nat) (l : List Ty) : ∀ v ∈ mkOuts k l, v.source = k := by
  intro v hv
  unfold mkOuts at hv
  rw [List.mem_map] at hv
  obtain ⟨p, _, rfl⟩ := hv
  rfl

/-- Invariant of an assembly state: the argument occurrences of the built
nodes together with the unused pool are pairwise distinct values, and all of
them were produced by already-created nodes. -/
def poolInv (s : List Inst × List TypedValue) : Prop :=
  (graphArgs s.1 ++ s.2).Nodup ∧ ∀ v ∈ graphArgs s.1 ++ s.2, v.source < s.1.length

theorem add_nodetype_inv {nt : NodeType} {s s2 : List Inst × List TypedValue}
    (h : s2 ∈ add_nodetype nt s) (hinv : poolInv s) : poolInv s2 := by
  unfold add_nodetype at h
  rw [List.mem_map] at h
  obtain ⟨c, hc, rfl⟩ := h
  have hperm0 : (c.1 ++ c.2).Perm s.2 := bind_args_perm nt.INTYPES [] s.2 c hc
  have hargs : graphArgs (s.1 ++ [⟨nt.name, c.1, mkOuts s.1.length nt.OUTTYPES⟩])
      = graphArgs s.1 ++ c.1 := by
    unfold graphArgs
    rw [List.flatMap_append]
    simp
  have hperm : (graphArgs (s.1 ++ [⟨nt.name, c.1, mkOuts s.1.length nt.OUTTYPES⟩]) ++
        (c.2 ++ mkOuts s.1.length nt.OUTTYPES)).Perm
      ((graphArgs s.1 ++ s.2) ++ mkOuts s.1.length nt.OUTTYPES) := by
    rw [hargs]
    have h4 := (hperm0.append_right (mkOuts s.1.length nt.OUTTYPES)).append_left
      (graphArgs s.1)
    simpa [List.append_assoc] using h4
  constructor
  · apply hperm.symm.nodup
    apply List.Nodup.append hinv.1 (mkOuts_nodup _ _)
    intro v hv1 hv2
    have hlt := hinv.2 v hv1
    have heq := mkOuts_source _ _ v hv2
    omega
  · intro v hv
    have hv2 := hperm.mem_iff.mp hv
    rw [List.mem_append] at hv2
    rw [List.length_append, List.length_singleton]
    rcases hv2 with hv2 | hv2
    · have := hinv.2 v hv2
      omega
    · rw [mkOuts_source _ _ v hv2]
      omega

theorem all_states_inv : ∀ (seq : List NodeType) (s s2 : List Inst × List TypedValue),
    s2 ∈ all_states seq s → poolInv s → poolInv s2 := by
  intro seq
  induction seq with
  | nil =>
    intro s s2 h hinv
    simp only [all_states, List.mem_singleton] at h
    subst h
    exact hinv
  | cons nt seq ih =>
    intro s s2 h hinv
    simp only [all_states, List.mem_flatMap] at h
    obtain ⟨s1, hs1, hs2⟩ := h
    exact ih s1 s2 hs2 (add_nodetype_inv hs1 hinv)

/-- C8: in every graph the assembler produces — exhaustive mode, and sample
mode for every oracle — the bound-argument occurrences across all node
instances are pairwise distinct: each TypedValue is consumed by at most one
NodeInstance, and no value appears twice in one argument list, because a value
is removed from the unused pool the instant it is bound. -/
theorem typedvalue_consumed_at_most_once (nodetypes : List NodeType) :
    (∀ g ∈ all_from_list_of_node_types nodetypes, (graphArgs g).Nodup) ∧
    (∀ (oracle : Nat → Nat) (g : List Inst),
      from_list_of_node_types oracle nodetypes = some g → (graphArgs g).Nodup) := by
  have hall : ∀ g ∈ all_from_list_of_node_types nodetypes, (graphArgs g).Nodup := by
    intro g hg
    unfold all_from_list_of_node_types at hg
    rw [List.mem_map] at hg
    obtain ⟨s, hs, rfl⟩ := hg
    have hinv := all_states_inv nodetypes ([], []) s hs
      ⟨by simp [graphArgs], by simp [graphArgs]⟩
    exact hinv.1.sublist (List.sublist_append_left _ _)
  refine ⟨hall, fun oracle g h => ?_⟩
  unfold from_list_of_node_types at h
  cases hs : sample_states oracle nodetypes ([], []) 0 with
  | none => rw [hs] at h; cases h
  | some p =>
    rw [hs] at h
    have h2 : p.1.1 = g := by simpa using h
    have hmem : p.1 ∈ all_states nodetypes ([], []) :=
      sample_states_mem oracle nodetypes ([], []) 0 p.1 p.2 (by rw [hs])
    rw [← h2]
    exact hall p.1.1 (by
      unfold all_from_list_of_node_types
      exact List.mem_map_of_mem _ hmem)

/-- C8 witness: a concrete exhaustive assembly of `[InKey, SingleInputKey]`
contains the two-node graph, whose argument occurrences are distinct. -/
theorem typedvalue_consumed_at_most_once_witness :
    ([⟨"InKey", [], [⟨Ty.PossiblyRepeatedInputKey, "uninitialized", 0, 0⟩]⟩,
      ⟨"SingleInputKey", [⟨Ty.PossiblyRepeatedInputKey, "uninitialized", 0, 0⟩],
        [⟨Ty.InputKey, "uninitialized", 1, 0⟩]⟩] ∈
      all_from_list_of_node_types [InKey, SingleInputKey]) ∧
    (graphArgs [⟨"InKey", [], [⟨Ty.PossiblyRepeatedInputKey, "uninitialized", 0, 0⟩]⟩,
      ⟨"SingleInputKey", [⟨Ty.PossiblyRepeatedInputKey, "uninitialized", 0, 0⟩],
        [⟨Ty.InputKey, "uninitialized", 1, 0⟩]⟩]).Nodup :=
  ⟨by decide, (typedvalue_consumed_at_most_once [InKey, SingleInputKey]).1 _ (by decide)⟩

theorem gu_loop_spec (cand : Nat → List Inst) (n : Nat) :
    ∀ (fuel : Nat) (emitted : List (List Inst)) (seen : List Nat) (i : Nat),
      (emitted.map pgHash).Nodup → (∀ h ∈ emitted.map pgHash, h ∈ seen) →
      emitted.length ≤ n →
      ((gu_loop cand n fuel emitted seen i).1.map pgHash).Nodup ∧
        (gu_loop cand n fuel emitted seen i).1.length ≤ n ∧
        ((gu_loop cand n fuel emitted seen i).2 = true →
          (gu_loop cand n fuel emitted seen i).1.length = n) := by
  intro fuel
  induction fuel with
  | zero =>
    intro emitted seen i h1 h2 h3
    refine ⟨h1, h3, ?_⟩
    simp only [gu_loop]
    intro h
    have h4 := of_decide_eq_true h
    omega
  | succ fuel ih =>
    intro emitted seen i h1 h2 h3
    simp only [gu_loop]
    by_cases hn : n ≤ emitted.length
    · rw [if_pos hn]
      exact ⟨h1, h3, fun _ => le_antisymm h3 hn⟩
    · rw [if_neg hn]
      by_cases hseen : pgHash (cand i) ∈ seen
      · rw [if_pos hseen]
        exact ih emitted seen (i + 1) h1 h2 h3
      · rw [if_neg hseen]
        apply ih
        · rw [List.map_append]
          apply List.Nodup.append h1 (by simp)
          intro x hx1 hx2
          rw [List.map_singleton, List.mem_singleton] at hx2
          exact hseen (hx2 ▸ h2 x hx1)
        · intro h hmem
          rw [List.map_append, List.mem_append] at hmem
          rcases hmem with hmem | hmem
          · exact List.mem_cons_of_mem _ (h2 h hmem)
          · rw [List.map_singleton, List.mem_singleton] at hmem
            exact hmem ▸ List.mem_cons_self _ _
        · rw [List.length_append, List.length_singleton]
          omega

/-- C4 amended: the driver never emits two graphs with the same fingerprint,
never emits more than `n`, and when its loop finishes it has emitted exactly
`n`; but it defines no `GenerationExhausted` and raises nothing — when no fresh
fingerprint turns up it loops forever rather than terminating or raising. -/
theorem generate_unique_spec (cand : Nat → List Inst) (n fuel : Nat) :
    ((generate_unique cand n fuel).1.map pgHash).Nodup ∧
      (generate_unique cand n fuel).1.length ≤ n ∧
      ((generate_unique cand n fuel).2 = true →
        (generate_unique cand n fuel).1.length = n) :=
  gu_loop_spec cand n fuel [] [] 0 (by simp) (by simp) (by simp)

/-- The one-node graph assembled from `[InKey]`. -/
def inKeyGraph : List Inst :=
  [⟨"InKey", [], [⟨Ty.PossiblyRepeatedInputKey, "uninitialized", 0, 0⟩]⟩]

theorem gu_loop_const_stuck :
    ∀ (fuel i : Nat),
      gu_loop (fun _ => inKeyGraph) 2 fuel [inKeyGraph] [pgHash inKeyGraph] i
        = ([inKeyGraph], false) := by
  intro fuel
  induction fuel with
  | zero => intro i; simp [gu_loop]
  | succ fuel ih =>
    intro i
    simp only [gu_loop]
    rw [if_neg (by simp), if_pos (List.mem_singleton.mpr rfl)]
    exact ih (i + 1)

/-- C4 counterexample: when the randomized pipeline keeps producing one and the
same graph and two unique graphs are requested, the loop of `generate_unique`
never finishes and never yields a second graph, for any number of iterations —
and the source defines no `GenerationExhausted` and contains no `raise`, so the
claimed exception cannot occur: the generator silently loops forever. -/
theorem generate_unique_no_exhaustion :
    ¬ ∃ fuel, (generate_unique (fun _ => inKeyGraph) 2 fuel).2 = true ∨
      2 ≤ (generate_unique (fun _ => inKeyGraph) 2 fuel).1.length := by
  rintro ⟨fuel, h⟩
  cases fuel with
  | zero =>
    revert h
    simp [generate_unique, gu_loop]
  | succ f =>
    have hrun : generate_unique (fun _ => inKeyGraph) 2 (f + 1) = ([inKeyGraph], false) := by
      unfold generate_unique
      simp only [gu_loop]
      rw [if_neg (by simp), if_neg (by simp)]
      exact gu_loop_const_stuck f 1
    rw [hrun] at h
    simp at h

/-- C4 witness: a candidate stream alternating two structurally different
graphs lets the loop finish with exactly two distinct fingerprints. -/
theorem generate_unique_spec_witness :
    ((generate_unique
        (fun i => if i % 2 = 0 then inKeyGraph
          else [⟨"InputToggle", [], [⟨Ty.Bool, "uninitialized", 0, 0⟩]⟩]) 2 3).1.map
      pgHash).Nodup ∧
    (generate_unique
        (fun i => if i % 2 = 0 then inKeyGraph
          else [⟨"InputToggle", [], [⟨Ty.Bool, "uninitialized", 0, 0⟩]⟩]) 2 3).1.length = 2 :=
  ⟨(generate_unique_spec _ 2 3).1, (generate_unique_spec _ 2 3).2.2 (by decide)⟩

/-- The `RepeatInputKey` node type as registered in `ALL_NODETYPES`. -/
def RepeatInputKey : NodeType :=
  { name := "RepeatInputKey"
    INTYPES := [Ty.PossiblyRepeatedInputKey]
    OUTTYPES := [Ty.InputKey, Ty.InputKey]
    FORMATSTRINGS := [""] }

/-- The `InputClickPosition` node type as registered in `ALL_NODETYPES`. -/
def InputClickPosition : NodeType :=
  { name := "InputClickPosition"
    INTYPES := [Ty.InputKey]
    OUTTYPES := [Ty.Position]
    FORMATSTRINGS := [""] }

/-- An assembled graph holding two `InputClickPosition` instances that are
wired to the two distinct outputs of the same `RepeatInputKey` node. -/
def tieGraph : List Inst :=
  [⟨"InKey", [], [⟨Ty.PossiblyRepeatedInputKey, "uninitialized", 0, 0⟩]⟩,
   ⟨"RepeatInputKey", [⟨Ty.PossiblyRepeatedInputKey, "uninitialized", 0, 0⟩],
     [⟨Ty.InputKey, "uninitialized", 1, 0⟩, ⟨Ty.InputKey, "uninitialized", 1, 1⟩]⟩,
   ⟨"InputClickPosition", [⟨Ty.InputKey, "uninitialized", 1, 0⟩],
     [⟨Ty.Position, "uninitialized", 2, 0⟩]⟩,
   ⟨"InputClickPosition", [⟨Ty.InputKey, "uninitialized", 1, 1⟩],
     [⟨Ty.Position, "uninitialized", 3, 0⟩]⟩]

/-- A three-node assembled graph whose class names are pairwise distinct. -/
def wallGraph : List Inst :=
  [⟨"InKey", [], [⟨Ty.PossiblyRepeatedInputKey, "uninitialized", 0, 0⟩]⟩,
   ⟨"SingleInputKey", [⟨Ty.PossiblyRepeatedInputKey, "uninitialized", 0, 0⟩],
     [⟨Ty.InputKey, "uninitialized", 1, 0⟩]⟩,
   ⟨"InputPerpendicularLine", [⟨Ty.InputKey, "uninitialized", 1, 0⟩],
     [⟨Ty.SimplePath, "uninitialized", 2, 0⟩]⟩,
   ⟨"Wall", [⟨Ty.SimplePath, "uninitialized", 2, 0⟩],
     [⟨Ty.GameEffect, "uninitialized", 3, 0⟩]⟩]

/-- C1: `PowerGraph.__hash__` sorts the node collection by class name only, and
ties between instances of the same class keep the presentation order, so
presenting the same set of node instances in a different order changes the
digest whenever two same-class instances have different argument wirings — the
producible graph `tieGraph` digests differently under the transposition of its
two `InputClickPosition` nodes.  When all class names are pairwise distinct the
sort makes the digest presentation-order invariant, as the `wallGraph`
conjuncts illustrate. -/
theorem powergraph_hash_order_dependent :
    tieGraph ∈ all_from_list_of_node_types
      [InKey, RepeatInputKey, InputClickPosition, InputClickPosition] ∧
    powergraph_hash tieGraph [0, 1, 2, 3] ≠ powergraph_hash tieGraph [0, 1, 3, 2] ∧
    powergraph_hash wallGraph [0, 1, 2, 3] = powergraph_hash wallGraph [3, 1, 0, 2] ∧
    powergraph_hash wallGraph [0, 1, 2, 3] = powergraph_hash wallGraph [2, 3, 1, 0] := by
  decide

/-- Every output a node is created with carries the placeholder description. -/
theorem mkOuts_description (k : Nat) (l : List Ty) :
    ∀ v ∈ mkOuts k l, v.description = "uninitialized" := by
  intro v hv
  unfold mkOuts at hv
  rw [List.mem_map] at hv
  obtain ⟨p, _, rfl⟩ := hv
  rfl

theorem all_states_unbaked : ∀ (seq : List NodeType) (s s2 : List Inst × List TypedValue),
    s2 ∈ all_states seq s →
    (∀ inst ∈ s.1, ∀ v ∈ inst.out, v.description = "uninitialized") →
    ∀ inst ∈ s2.1, ∀ v ∈ inst.out, v.description = "uninitialized" := by
  intro seq
  induction seq with
  | nil =>
    intro s s2 h hbase
    simp only [all_states, List.mem_singleton] at h
    subst h
    exact hbase
  | cons nt seq ih =>
    intro s s2 h hbase
    simp only [all_states, List.mem_flatMap] at h
    obtain ⟨s1, hs1, hs2⟩ := h
    refine ih s1 s2 hs2 ?_
    unfold add_nodetype at hs1
    rw [List.mem_map] at hs1
    obtain ⟨c, _, rfl⟩ := hs1
    intro inst hinst
    rw [List.mem_append, List.mem_singleton] at hinst
    rcases hinst with hinst | rfl
    · exact hbase inst hinst
    · exact mkOuts_description _ _

/-- C5: no bake pass exists in the pipeline — `Node.bake` is defined but never
called by `from_list_of_node_types`, `all_from_list_of_node_types` or
`generate_unique` — so every output of every assembled graph still carries the
constructor placeholder `"uninitialized"` instead of a baked description. -/
theorem assembled_outputs_unbaked (nodetypes : List NodeType) :
    ∀ g ∈ all_from_list_of_node_types nodetypes, ∀ inst ∈ g, ∀ v ∈ inst.out,
      v.description = "uninitialized" := by
  intro g hg
  unfold all_from_list_of_node_types at hg
  rw [List.mem_map] at hg
  obtain ⟨s, hs, rfl⟩ := hg
  exact all_states_unbaked nodetypes ([], []) s hs (by simp)

/-- C5 witness: the `Wall` instance of the assembled `wallGraph` keeps the
placeholder on its `GameEffect` output, although its template is
`"A wall following {0}"`. -/
theorem assembled_outputs_unbaked_witness :
    wallGraph ∈ all_from_list_of_node_types
      [InKey, SingleInputKey, InputPerpendicularLine, Wall] ∧
    (⟨Ty.GameEffect, "uninitialized", 3, 0⟩ : TypedValue).description = "uninitialized" :=
  ⟨by decide,
   assembled_outputs_unbaked [InKey, SingleInputKey, InputPerpendicularLine, Wall]
     wallGraph (by decide)
     ⟨"Wall", [⟨Ty.SimplePath, "uninitialized", 2, 0⟩],
       [⟨Ty.GameEffect, "uninitialized", 3, 0⟩]⟩ (by decide)
     ⟨Ty.GameEffect, "uninitialized", 3, 0⟩ (by decide)⟩
